import Mathlib

/-!
Shallow embedding of the task-glitch analytics engine (`utils/logic.ts`).

JavaScript numbers are modelled by `JsNum`: a finite rational, one of the two
infinities, or NaN.  Exact rational arithmetic stands in for IEEE doubles
(rounding is not modelled); the IEEE special-value rules for `+` and `*`
are modelled explicitly.  Timestamps are modelled as integer milliseconds
since the Unix epoch; the UTC calendar fields of a JS `Date` are recovered
with the standard proleptic-Gregorian civil-from-days conversion, which is
exactly what `Date.UTC` / `getUTC*` implement.  `Array.prototype.sort` is
stable (ES2019), and a stable sort's output is uniquely determined by the
comparator and the input order, so it is embedded as the stable
`List.insertionSort`.
-/

namespace TaskGlitch

/-- Model of a JavaScript number: a finite rational, an infinity, or NaN. -/
inductive JsNum where
  | fin (q : ℚ)
  | posInf
  | negInf
  | nan
deriving DecidableEq, Repr

namespace JsNum

/-- Model of `Number.isFinite`. -/
def isFinite : JsNum → Bool
  | fin _ => true
  | _ => false

/-- The rational value of a finite `JsNum` (0 for the non-finite values). -/
def toQ : JsNum → ℚ
  | fin q => q
  | _ => 0

/-- IEEE addition on `JsNum` (exact on finite values; rounding not modelled). -/
def add : JsNum → JsNum → JsNum
  | nan, _ => nan
  | _, nan => nan
  | posInf, negInf => nan
  | negInf, posInf => nan
  | posInf, _ => posInf
  | _, posInf => posInf
  | negInf, _ => negInf
  | _, negInf => negInf
  | fin a, fin b => fin (a + b)

/-- IEEE multiplication on `JsNum` (exact on finite values). -/
def mul : JsNum → JsNum → JsNum
  | nan, _ => nan
  | _, nan => nan
  | posInf, posInf => posInf
  | posInf, negInf => negInf
  | negInf, posInf => negInf
  | negInf, negInf => posInf
  | posInf, fin b => if 0 < b then posInf else if b < 0 then negInf else nan
  | fin a, posInf => if 0 < a then posInf else if a < 0 then negInf else nan
  | negInf, fin b => if 0 < b then negInf else if b < 0 then posInf else nan
  | fin a, negInf => if 0 < a then negInf else if a < 0 then posInf else nan
  | fin a, fin b => fin (a * b)

/-- IEEE comparison `a <= b` on `JsNum` (false whenever NaN is involved). -/
def le : JsNum → JsNum → Bool
  | nan, _ => false
  | _, nan => false
  | negInf, _ => true
  | _, posInf => true
  | posInf, _ => false
  | fin _, negInf => false
  | fin a, fin b => decide (a ≤ b)

end JsNum

/-- Task priority, `Task['priority']` in the source. -/
inductive Priority where
  | High
  | Medium
  | Low
deriving DecidableEq, Repr

/-- A task record.  `status` is kept as a raw string because the engine's
weighted-pipeline lookup is defensive about unrecognized statuses.
`createdAt` and `completedAt` are epoch milliseconds. -/
structure Task where
  id : String
  title : String
  revenue : JsNum
  timeTaken : JsNum
  priority : Priority
  status : String
  createdAt : ℤ
  completedAt : Option ℤ
deriving DecidableEq, Repr

/-- A task enriched with the two derived fields. -/
structure DerivedTask extends Task where
  roi : Option ℚ
  priorityWeight : ℤ
deriving DecidableEq, Repr

/-- Source `computeROI`: `null` unless both arguments are finite and
`timeTaken > 0`, otherwise the exact quotient. -/
def computeROI (revenue timeTaken : JsNum) : Option ℚ :=
  if !revenue.isFinite || !timeTaken.isFinite || JsNum.le timeTaken (JsNum.fin 0) then
    none
  else
    some (revenue.toQ / timeTaken.toQ)

/-- Source `computePriorityWeight`: High 3, Medium 2, anything else 1. -/
def computePriorityWeight : Priority → ℤ
  | Priority.High => 3
  | Priority.Medium => 2
  | Priority.Low => 1

/-- Source `withDerived`. -/
def withDerived (t : Task) : DerivedTask :=
  { t with
    roi := computeROI t.revenue t.timeTaken
    priorityWeight := computePriorityWeight t.priority }

/-- Lexicographic comparison of character lists: the model of
`localeCompare(...) <= 0` for the plain ASCII strings this engine
compares (default-locale collation orders them by code point). -/
def charListLe : List Char → List Char → Bool
  | [], _ => true
  | _ :: _, [] => false
  | a :: as, b :: bs => if a < b then true else if b < a then false else charListLe as bs

/-- String comparison `a.localeCompare(b) <= 0`. -/
def strLe (a b : String) : Bool := charListLe a.data b.data

/-- The comparator's ROI key: `a.roi ?? -Infinity`, i.e. the rational ROI
with the null sentinel replaced by bottom. -/
def roiKey (t : DerivedTask) : WithBot ℚ :=
  match t.roi with
  | none => ⊥
  | some q => (q : WithBot ℚ)

/-- The source comparator as a non-strict ordering test: `taskLe a b` holds
iff the comparator places `a` before `b` or ties them (`cmp(a,b) <= 0`).
The comparator: ROI descending (null as `-Infinity`), then `priorityWeight`
descending, then `title` ascending as the tie-break. -/
def taskLe (a b : DerivedTask) : Bool :=
  if roiKey b ≠ roiKey a then decide (roiKey b < roiKey a)
  else if b.priorityWeight ≠ a.priorityWeight then decide (b.priorityWeight < a.priorityWeight)
  else strLe a.title b.title

/-- The comparator as a proposition. -/
def TaskLe (a b : DerivedTask) : Prop := taskLe a b = true

instance : DecidableRel TaskLe := fun a b => by
  unfold TaskLe; infer_instance

/-- Source `sortTasks`: a stable sort of a copy of the input under the
three-key comparator.  `Array.prototype.sort` is stable and a stable sort's
output is uniquely determined by the comparator (here a total preorder) and
the input order, so the stable `insertionSort` is an exact model. -/
def sortTasks (tasks : List DerivedTask) : List DerivedTask :=
  tasks.insertionSort TaskLe

/-- Source `computeTotalTimeTaken`: plain reduce of `timeTaken` over all
tasks, with no finiteness filtering. -/
def computeTotalTimeTaken (tasks : List Task) : JsNum :=
  tasks.foldl (fun sum t => sum.add t.timeTaken) (JsNum.fin 0)

/-- Source `computeAverageROI`: mean of the defined ROI values; 0 when none
is defined.  Each defined ROI is a rational, so the result is one too. -/
def computeAverageROI (tasks : List Task) : ℚ :=
  let values := tasks.filterMap (fun t => computeROI t.revenue t.timeTaken)
  if values.length = 0 then 0
  else values.foldl (· + ·) 0 / values.length

/-- The `weights` record of the source `computeWeightedPipeline`: object
lookup yields `undefined` for keys other than the three statuses. -/
def pipelineWeight (status : String) : Option ℚ :=
  if status = "Todo" then some (1/10)
  else if status = "In Progress" then some (1/2)
  else if status = "Done" then some 1
  else none

/-- Source `computeWeightedPipeline`: reduce of
`revenue * (weights[status] ?? 0)` over all tasks. -/
def computeWeightedPipeline (tasks : List Task) : JsNum :=
  tasks.foldl
    (fun sum t => sum.add (t.revenue.mul (JsNum.fin ((pipelineWeight t.status).getD 0))))
    (JsNum.fin 0)

/-- Source `daysBetween`: `Math.max(0, Math.round((b - a) / 86400000))` on
epoch milliseconds.  `Math.round` rounds half toward positive infinity,
which is Mathlib's `round` on ℚ. -/
def daysBetween (aMs bMs : ℤ) : ℤ :=
  max 0 (round (((bMs - aMs : ℤ) : ℚ) / 86400000))

/-- Velocity entry of one priority bucket. -/
structure VelocityStat where
  avgDays : ℚ
  medianDays : ℚ
deriving DecidableEq, Repr

/-- The `groups[p]` array of the source `computeVelocityByPriority`: the
completion durations of the tasks of priority `p` that have a
`completedAt`, in input order. -/
def velocityBucket (tasks : List Task) (p : Priority) : List ℤ :=
  tasks.filterMap fun t =>
    match t.completedAt with
    | none => none
    | some c => if t.priority = p then some (daysBetween t.createdAt c) else none

/-- Source `computeVelocityByPriority`, as a function of the priority
bucket: sorts the bucket ascending, then reports the mean and the element
at index `floor(n / 2)`; an empty bucket reports 0/0. -/
def computeVelocityByPriority (tasks : List Task) (p : Priority) : VelocityStat :=
  let arr := (velocityBucket tasks p).insertionSort (· ≤ ·)
  if arr.length = 0 then ⟨0, 0⟩
  else
    { avgDays := ((arr.foldl (· + ·) 0 : ℤ) : ℚ) / arr.length
      medianDays := ((arr.getD (arr.length / 2) 0 : ℤ) : ℚ) }

/-! Calendar arithmetic.  A JS `Date` holds epoch milliseconds; its
`getUTC*` accessors decompose `floor(ms / 86400000)` as a proleptic
Gregorian civil date.  `daysFromCivil` and `civilFromDays` are the standard
(Hinnant) conversions between a civil date and its epoch day number. -/

/-- Epoch day number of a civil date (proleptic Gregorian). -/
def daysFromCivil (y m d : ℤ) : ℤ :=
  let y' := if m ≤ 2 then y - 1 else y
  let era := y'.fdiv 400
  let yoe := y' - era * 400
  let mp := (m + 9) % 12
  let doy := (153 * mp + 2).fdiv 5 + d - 1
  let doe := yoe * 365 + yoe.fdiv 4 - yoe.fdiv 100 + doy
  era * 146097 + doe - 719468

/-- Civil date (year, month, day) of an epoch day number. -/
def civilFromDays (z0 : ℤ) : ℤ × ℤ × ℤ :=
  let z := z0 + 719468
  let era := z.fdiv 146097
  let doe := z - era * 146097
  let yoe := (doe - doe.fdiv 1460 + doe.fdiv 36524 - doe.fdiv 146096).fdiv 365
  let y := yoe + era * 400
  let doy := doe - (365 * yoe + yoe.fdiv 4 - yoe.fdiv 100)
  let mp := (5 * doy + 2).fdiv 153
  let d := doy - (153 * mp + 2).fdiv 5 + 1
  let m := if mp < 10 then mp + 3 else mp - 9
  (if m ≤ 2 then y + 1 else y, m, d)

/-- Model of `getUTCDay() || 7` on the UTC-midnight date with epoch day
`z`: ISO day of week, Monday 1 .. Sunday 7 (1970-01-01 was a Thursday). -/
def isoDayOfWeek (z : ℤ) : ℤ :=
  let w := (z + 4) % 7
  if w = 0 then 7 else w

/-- Source `getWeekNumber` on the date with epoch day `z`: shift to the
Thursday of the date's ISO week, then count weeks from January 1 of that
Thursday's year. -/
def getWeekNumber (z : ℤ) : ℤ :=
  let t := z + 4 - isoDayOfWeek z
  let ty := (civilFromDays t).1
  let jan1 := daysFromCivil ty 1 1
  (t - jan1 + 1 + 6).fdiv 7

/-- The grouping key the source builds for a completion timestamp:
`` `${d.getUTCFullYear()}-W${getWeekNumber(d)}` `` — calendar year of the
date and unpadded week number. -/
def weekKey (ms : ℤ) : String :=
  let z := ms.fdiv 86400000
  let yr := (civilFromDays z).1
  let wk := getWeekNumber z
  s!"{yr}-W{wk}"

/-- One output bucket of `computeThroughputByWeek`. -/
structure ThroughputEntry where
  week : String
  count : ℕ
  revenue : JsNum
deriving DecidableEq, Repr

/-- Insertion-ordered map update used by the source's `Map`: bump the
entry of key `k`, or append a fresh one. -/
def bumpWeek (m : List ThroughputEntry) (k : String) (rev : JsNum) : List ThroughputEntry :=
  match m with
  | [] => [⟨k, 1, JsNum.add (JsNum.fin 0) rev⟩]
  | e :: rest =>
      if e.week = k then ⟨e.week, e.count + 1, e.revenue.add rev⟩ :: rest
      else e :: bumpWeek rest k rev

/-- Source `computeThroughputByWeek`: group the completed tasks by the
week key of their completion date (a JS `Map`, i.e. first-insertion
order), then sort the entries by `localeCompare` on the key — plain
lexical string order for these ASCII keys. -/
def computeThroughputByWeek (tasks : List Task) : List ThroughputEntry :=
  let entries := tasks.foldl
    (fun m t =>
      match t.completedAt with
      | none => m
      | some ms => bumpWeek m (weekKey ms) t.revenue)
    []
  entries.insertionSort (fun a b => strLe a.week b.week = true)

/-- A point of the weekly revenue series. -/
structure WeekPoint where
  week : String
  revenue : ℚ
deriving DecidableEq, Repr

/-- The source's local `x`: the week indices as numbers. -/
def fcX (weekly : List WeekPoint) : List ℚ :=
  (List.range weekly.length).map (fun i : ℕ => (i : ℚ))

/-- The source's local `sumX`. -/
def fcSumX (weekly : List WeekPoint) : ℚ :=
  (fcX weekly).foldl (· + ·) 0

/-- The source's local `sumY` (`y` is `weekly.map(w => w.revenue)`). -/
def fcSumY (weekly : List WeekPoint) : ℚ :=
  (weekly.map (·.revenue)).foldl (· + ·) 0

/-- The source's local `sumXY`: `x.reduce((s, v, i) => s + v * y[i], 0)`,
where `x[i] = i`. -/
def fcSumXY (weekly : List WeekPoint) : ℚ :=
  (List.range weekly.length).foldl
    (fun (s : ℚ) (i : ℕ) => s + (i : ℚ) * (weekly.map (·.revenue)).getD i 0) 0

/-- The source's local `sumXX`. -/
def fcSumXX (weekly : List WeekPoint) : ℚ :=
  (fcX weekly).foldl (fun s v => s + v * v) 0

/-- The regression denominator `n * sumXX - sumX * sumX`. -/
def fcDen (weekly : List WeekPoint) : ℚ :=
  ((fcX weekly).length : ℚ) * fcSumXX weekly - fcSumX weekly * fcSumX weekly

/-- The source's `slope`, with the `|| 1` guard on the denominator. -/
def fcSlope (weekly : List WeekPoint) : ℚ :=
  (((fcX weekly).length : ℚ) * fcSumXY weekly - fcSumX weekly * fcSumY weekly) /
    (if fcDen weekly = 0 then 1 else fcDen weekly)

/-- The source's `intercept`. -/
def fcIntercept (weekly : List WeekPoint) : ℚ :=
  (fcSumY weekly - fcSlope weekly * fcSumX weekly) / ((fcX weekly).length : ℚ)

/-- Source `computeForecast`: ordinary least-squares regression of revenue
against index, denominator defensively replaced by 1 when zero (`|| 1`),
each forecast floored at zero; empty when fewer than two points. -/
def computeForecast (weekly : List WeekPoint) (horizonWeeks : ℕ := 4) : List WeekPoint :=
  if weekly.length < 2 then []
  else
    (List.range horizonWeeks).map fun i =>
      let k : ℕ := i + 1
      ⟨s!"+{k}",
        max 0 (fcSlope weekly * (((fcX weekly).length : ℚ) + i) + fcIntercept weekly)⟩

/-! Order-theoretic facts about the comparator. -/

theorem charListLe_total : ∀ as bs : List Char, charListLe as bs = true ∨ charListLe bs as = true
  | [], _ => Or.inl rfl
  | _ :: _, [] => Or.inr rfl
  | a :: as, b :: bs => by
    by_cases hab : a < b
    · left; simp [charListLe, hab]
    · by_cases hba : b < a
      · right; simp [charListLe, hba, asymm hba]
      · rcases charListLe_total as bs with h | h
        · left; simp [charListLe, hab, hba, h]
        · right; simp [charListLe, hab, hba, h]

theorem charListLe_trans : ∀ as bs cs : List Char,
    charListLe as bs = true → charListLe bs cs = true → charListLe as cs = true
  | [], _, _ => by intro _ _; rfl
  | _ :: _, [], _ => by intro h; exact absurd h (by simp [charListLe])
  | _ :: _, _ :: _, [] => by intro _ h; exact absurd h (by simp [charListLe])
  | a :: as, b :: bs, c :: cs => by
    intro h1 h2
    by_cases hab : a < b
    · by_cases hbc : b < c
      · simp [charListLe, lt_trans hab hbc]
      · by_cases hcb : c < b
        · exact absurd h2 (by simp [charListLe, hbc, hcb])
        · have hbc' : b = c := le_antisymm (le_of_not_lt hcb) (le_of_not_lt hbc)
          simp [charListLe, hbc' ▸ hab]
    · by_cases hba : b < a
      · exact absurd h1 (by simp [charListLe, hab, hba])
      · have hab' : a = b := le_antisymm (le_of_not_lt hba) (le_of_not_lt hab)
        subst hab'
        by_cases hac : a < c
        · simp [charListLe, hac]
        · by_cases hca : c < a
          · exact absurd h2 (by simp [charListLe, hac, hca])
          · have h1' : charListLe as bs = true := by
              simpa [charListLe, hab, hba] using h1
            have h2' : charListLe bs cs = true := by
              simpa [charListLe, hac, hca] using h2
            simp [charListLe, hac, hca, charListLe_trans as bs cs h1' h2']

theorem charListLe_antisymm : ∀ as bs : List Char,
    charListLe as bs = true → charListLe bs as = true → as = bs
  | [], [] => by intro _ _; rfl
  | [], _ :: _ => by intro _ h; exact absurd h (by simp [charListLe])
  | _ :: _, [] => by intro h _; exact absurd h (by simp [charListLe])
  | a :: as, b :: bs => by
    intro h1 h2
    by_cases hab : a < b
    · exact absurd h2 (by simp [charListLe, asymm hab, hab])
    · by_cases hba : b < a
      · exact absurd h1 (by simp [charListLe, hab, hba])
      · have hab' : a = b := le_antisymm (le_of_not_lt hba) (le_of_not_lt hab)
        have h1' : charListLe as bs = true := by simpa [charListLe, hab, hba] using h1
        have h2' : charListLe bs as = true := by simpa [charListLe, hab, hba] using h2
        rw [hab', charListLe_antisymm as bs h1' h2']

theorem strLe_total (a b : String) : strLe a b = true ∨ strLe b a = true :=
  charListLe_total a.data b.data

theorem strLe_trans {a b c : String} (h1 : strLe a b = true) (h2 : strLe b c = true) :
    strLe a c = true :=
  charListLe_trans a.data b.data c.data h1 h2

theorem strLe_antisymm {a b : String} (h1 : strLe a b = true) (h2 : strLe b a = true) :
    a = b := by
  cases a; cases b
  exact congrArg String.mk (charListLe_antisymm _ _ h1 h2)

/-- The relation the spec describes between consecutive output elements:
ROI descending with the undefined sentinel as negative infinity, then
priority weight descending, then title ascending. -/
def SpecBefore (a b : DerivedTask) : Prop :=
  roiKey b < roiKey a ∨
    (roiKey a = roiKey b ∧
      (b.priorityWeight < a.priorityWeight ∨
        (a.priorityWeight = b.priorityWeight ∧ strLe a.title b.title = true)))

theorem taskLe_iff (a b : DerivedTask) : taskLe a b = true ↔ SpecBefore a b := by
  unfold taskLe SpecBefore
  by_cases hr : roiKey b ≠ roiKey a
  · rcases lt_or_gt_of_ne hr with h | h
    · simp [hr, h, asymm h, Ne.symm hr]
    · simp [hr, h, asymm h, Ne.symm hr]
  · push_neg at hr
    by_cases hw : b.priorityWeight ≠ a.priorityWeight
    · rcases lt_or_gt_of_ne hw with h | h
      · simp [hr, hw, h, asymm h, lt_irrefl]
      · simp [hr, hw, h, asymm h, lt_irrefl, Ne.symm hw]
    · push_neg at hw
      simp [hr, hw, lt_irrefl]

theorem taskLe_total (a b : DerivedTask) : taskLe a b = true ∨ taskLe b a = true := by
  unfold taskLe
  by_cases hr : roiKey b ≠ roiKey a
  · rcases lt_or_gt_of_ne hr with h | h
    · left; simp [hr, h]
    · right; simp [Ne.symm hr, h]
  · push_neg at hr
    by_cases hw : b.priorityWeight ≠ a.priorityWeight
    · rcases lt_or_gt_of_ne hw with h | h
      · left; simp [hr, hw, h]
      · right; simp [hr.symm, Ne.symm hw, h]
    · push_neg at hw
      rcases strLe_total a.title b.title with h | h
      · left; simp [hr, hw, h]
      · right; simp [hr.symm, hw.symm, h]

theorem taskLe_keys_of_antisymm {a b : DerivedTask} (h1 : taskLe a b = true)
    (h2 : taskLe b a = true) :
    roiKey a = roiKey b ∧ a.priorityWeight = b.priorityWeight ∧ a.title = b.title := by
  rw [taskLe_iff] at h1 h2
  rcases h1 with h1 | ⟨hr1, h1⟩
  · rcases h2 with h2 | ⟨hr2, _⟩
    · exact absurd h2 (asymm h1)
    · exact absurd h1 (hr2 ▸ lt_irrefl _)
  · rcases h2 with h2 | ⟨_, h2⟩
    · exact absurd h2 (hr1 ▸ lt_irrefl _)
    · refine ⟨hr1, ?_⟩
      rcases h1 with h1 | ⟨hw1, h1⟩
      · rcases h2 with h2 | ⟨hw2, _⟩
        · exact absurd h2 (asymm h1)
        · exact absurd h1 (hw2 ▸ lt_irrefl _)
      · rcases h2 with h2 | ⟨_, h2⟩
        · exact absurd h2 (hw1 ▸ lt_irrefl _)
        · exact ⟨hw1, strLe_antisymm h1 h2⟩

theorem taskLe_trans {a b c : DerivedTask} (h1 : taskLe a b = true)
    (h2 : taskLe b c = true) : taskLe a c = true := by
  rw [taskLe_iff] at h1 h2 ⊢
  rcases h1 with h1 | ⟨hr1, h1⟩
  · rcases h2 with h2 | ⟨hr2, _⟩
    · exact Or.inl (lt_trans h2 h1)
    · exact Or.inl (hr2 ▸ h1)
  · rcases h2 with h2 | ⟨hr2, h2⟩
    · exact Or.inl (hr1 ▸ h2)
    · refine Or.inr ⟨hr1.trans hr2, ?_⟩
      rcases h1 with h1 | ⟨hw1, h1⟩
      · rcases h2 with h2 | ⟨hw2, _⟩
        · exact Or.inl (lt_trans h2 h1)
        · exact Or.inl (hw2 ▸ h1)
      · rcases h2 with h2 | ⟨hw2, h2⟩
        · exact Or.inl (hw1 ▸ h2)
        · exact Or.inr ⟨hw1.trans hw2, strLe_trans h1 h2⟩

instance : IsTotal DerivedTask TaskLe := ⟨taskLe_total⟩

instance : IsTrans DerivedTask TaskLe := ⟨fun _ _ _ => taskLe_trans⟩

theorem sortTasks_sorted (l : List DerivedTask) : (sortTasks l).Pairwise TaskLe :=
  List.sorted_insertionSort TaskLe l

/-- Two sorted lists that are permutations of each other coincide, given
antisymmetry of the relation on the elements actually present (no global
antisymmetry assumption). -/
theorem eq_of_perm_of_pairwise_of_antisymmOn {α : Type} {r : α → α → Prop} :
    ∀ {l₁ l₂ : List α}, l₁.Perm l₂ → l₁.Pairwise r → l₂.Pairwise r →
      (∀ a ∈ l₁, ∀ b ∈ l₁, r a b → r b a → a = b) → l₁ = l₂
  | [], l₂, hp, _, _, _ => hp.nil_eq
  | a :: t, l₂, hp, hs₁, hs₂, hanti => by
    cases l₂ with
    | nil => exact absurd hp.symm.nil_eq (by simp)
    | cons b t₂ =>
      have hab : a = b := by
        by_cases h : a = b
        · exact h
        · have ha2 : a ∈ b :: t₂ := hp.subset (List.mem_cons_self a t)
          have hat2 : a ∈ t₂ := by
            rcases List.mem_cons.mp ha2 with h' | h'
            · exact absurd h' h
            · exact h'
          have hba : r b a := (List.pairwise_cons.mp hs₂).1 a hat2
          have hb1 : b ∈ a :: t := hp.symm.subset (List.mem_cons_self b t₂)
          have hbt : b ∈ t := by
            rcases List.mem_cons.mp hb1 with h' | h'
            · exact absurd h'.symm h
            · exact h'
          have hab' : r a b := (List.pairwise_cons.mp hs₁).1 b hbt
          exact hanti a (List.mem_cons_self a t) b hb1 hab' hba
      subst hab
      have hp' : t.Perm t₂ := hp.cons_inv
      have ht : t = t₂ :=
        eq_of_perm_of_pairwise_of_antisymmOn hp' (List.pairwise_cons.mp hs₁).2
          (List.pairwise_cons.mp hs₂).2
          (fun x hx y hy => hanti x (List.mem_cons_of_mem a hx) y (List.mem_cons_of_mem a hy))
      rw [ht]

theorem roiKey_eq_iff {a b : DerivedTask} : roiKey a = roiKey b ↔ a.roi = b.roi := by
  cases h1 : a.roi <;> cases h2 : b.roi <;> simp [roiKey, h1, h2]

/-- C10: `sortTasks` returns a permutation of its input: the same
`DerivedTask` elements with the same multiplicities, none added, dropped,
or modified.  (The embedding is a pure function on immutable lists, which
is the frame part of the claim: the input sequence itself is untouched and
the output is a fresh list.) -/
theorem sortTasks_perm_input (l : List DerivedTask) : (sortTasks l).Perm l :=
  List.perm_insertionSort TaskLe l

/-- C8: any two adjacent elements of the output of `sortTasks` are ordered
by ROI descending (undefined ROI substituted by negative infinity), then
by `priorityWeight` descending on ROI ties, then by title ascending in the
lexical order modelling `localeCompare`. -/
theorem sortTasks_adjacent_ordered (l : List DerivedTask) :
    (sortTasks l).Chain' SpecBefore :=
  List.Chain'.imp (fun a b h => (taskLe_iff a b).mp h) (sortTasks_sorted l).chain'

/-- Two derived tasks that tie on all three comparator keys but are
distinct records (different `id`). -/
def tieTask1 : DerivedTask :=
  { id := "id-1", title := "Same title", revenue := JsNum.fin 10, timeTaken := JsNum.fin 1
    priority := Priority.High, status := "Done", createdAt := 0, completedAt := none
    roi := some 10, priorityWeight := 3 }

/-- Same keys as `tieTask1`, different record. -/
def tieTask2 : DerivedTask := { tieTask1 with id := "id-2" }

unseal Rat.add Rat.mul Rat.inv Rat.sub in
/-- C1 counterexample: the two orderings of the same two-element multiset
of derived tasks are permutations of each other, yet `sortTasks` maps them
to different output sequences (the stable sort preserves the input order
of fully tied records), so the claim as stated — with no precondition that
the comparator keys be distinct — is false. -/
theorem sortTasks_perm_determinism_cex :
    ([tieTask1, tieTask2] : List DerivedTask).Perm [tieTask2, tieTask1] ∧
      sortTasks [tieTask1, tieTask2] ≠ sortTasks [tieTask2, tieTask1] := by
  constructor
  · decide
  · decide

/-- C1 (amended): if any two tasks of the input that agree on `roi`,
`priorityWeight` and `title` are the same record, then `sortTasks` yields
the same output on every permutation of the input; in particular (taking
the permutation to be the input itself) two calls on equal input yield
identical output order. -/
theorem sortTasks_perm_determinism (l₁ l₂ : List DerivedTask) (hp : l₁.Perm l₂)
    (hkeys : ∀ a ∈ l₁, ∀ b ∈ l₁,
      a.roi = b.roi → a.priorityWeight = b.priorityWeight → a.title = b.title → a = b) :
    sortTasks l₁ = sortTasks l₂ := by
  apply eq_of_perm_of_pairwise_of_antisymmOn
    ((List.perm_insertionSort TaskLe l₁).trans
      (hp.trans (List.perm_insertionSort TaskLe l₂).symm))
    (sortTasks_sorted l₁) (sortTasks_sorted l₂)
  intro a ha b hb hab hba
  have ha' : a ∈ l₁ := (List.perm_insertionSort TaskLe l₁).subset ha
  have hb' : b ∈ l₁ := (List.perm_insertionSort TaskLe l₁).subset hb
  obtain ⟨hr, hw, ht⟩ := taskLe_keys_of_antisymm hab hba
  exact hkeys a ha' b hb' (roiKey_eq_iff.mp hr) hw ht

/-- Two derived tasks with distinct ROI keys. -/
def keyedTask1 : DerivedTask :=
  { id := "k-1", title := "Alpha", revenue := JsNum.fin 10, timeTaken := JsNum.fin 1
    priority := Priority.High, status := "Done", createdAt := 0, completedAt := none
    roi := some 10, priorityWeight := 3 }

/-- A second derived task with a smaller ROI key. -/
def keyedTask2 : DerivedTask :=
  { id := "k-2", title := "Beta", revenue := JsNum.fin 5, timeTaken := JsNum.fin 1
    priority := Priority.Low, status := "Todo", createdAt := 0, completedAt := none
    roi := some 5, priorityWeight := 1 }

unseal Rat.add Rat.mul Rat.inv Rat.sub in
/-- Witness for the amended C1 at a concrete input. -/
theorem sortTasks_perm_determinism_witness :
    sortTasks [keyedTask1, keyedTask2] = sortTasks [keyedTask2, keyedTask1] :=
  sortTasks_perm_determinism [keyedTask1, keyedTask2] [keyedTask2, keyedTask1]
    (by decide) (by decide)

/-- C4: `computeROI` returns the undefined sentinel exactly when `revenue`
is not finite, `timeTaken` is not finite, or `timeTaken <= 0`; any defined
result is the exact rational quotient of finite inputs with positive
denominator — in particular it is never NaN nor infinite. -/
theorem computeROI_spec (r t : JsNum) :
    (computeROI r t = none ↔
      (r.isFinite = false ∨ t.isFinite = false ∨ JsNum.le t (JsNum.fin 0) = true)) ∧
    (∀ v : ℚ, computeROI r t = some v →
      ∃ qr qt : ℚ, r = JsNum.fin qr ∧ t = JsNum.fin qt ∧ 0 < qt ∧ v = qr / qt) := by
  cases r with
  | fin qr =>
    cases t with
    | fin qt =>
      by_cases h : qt ≤ 0
      · constructor
        · simp [computeROI, JsNum.isFinite, JsNum.le, h]
        · intro v hv
          exact absurd hv (by simp [computeROI, JsNum.isFinite, JsNum.le, h])
      · constructor
        · simp [computeROI, JsNum.isFinite, JsNum.le, h]
        · intro v hv
          refine ⟨qr, qt, rfl, rfl, lt_of_not_le h, ?_⟩
          have := hv.symm
          simpa [computeROI, JsNum.isFinite, JsNum.le, JsNum.toQ, h] using this
    | posInf => simp [computeROI, JsNum.isFinite, JsNum.le]
    | negInf => simp [computeROI, JsNum.isFinite, JsNum.le]
    | nan => simp [computeROI, JsNum.isFinite, JsNum.le]
  | posInf => cases t <;> simp [computeROI, JsNum.isFinite, JsNum.le]
  | negInf => cases t <;> simp [computeROI, JsNum.isFinite, JsNum.le]
  | nan => cases t <;> simp [computeROI, JsNum.isFinite, JsNum.le]

unseal Rat.add Rat.mul Rat.inv Rat.sub in
/-- Witness for C4 at revenue 10, timeTaken 4. -/
theorem computeROI_spec_witness :
    ∃ qr qt : ℚ, JsNum.fin 10 = JsNum.fin qr ∧ JsNum.fin 4 = JsNum.fin qt ∧
      0 < qt ∧ (5/2 : ℚ) = qr / qt :=
  (computeROI_spec (JsNum.fin 10) (JsNum.fin 4)).2 (5/2) (by decide)

/-- Generic fold fact: summing `f` over tasks whose images are all finite
starting from a finite accumulator yields the finite rational sum. -/
theorem foldl_add_fin (f : Task → JsNum) :
    ∀ (ts : List Task) (s : ℚ), (∀ t ∈ ts, ∃ q : ℚ, f t = JsNum.fin q) →
      ts.foldl (fun sum t => sum.add (f t)) (JsNum.fin s) =
        JsNum.fin (s + (ts.map (fun t => (f t).toQ)).sum)
  | [], s, _ => by simp
  | t :: ts, s, h => by
    obtain ⟨q, hq⟩ := h t (List.mem_cons_self t ts)
    have step : (JsNum.fin s).add (f t) = JsNum.fin (s + q) := by
      rw [hq]; rfl
    simp only [List.foldl_cons, step, List.map_cons, List.sum_cons]
    rw [foldl_add_fin f ts (s + q) (fun t' ht' => h t' (List.mem_cons_of_mem t ht'))]
    rw [hq]
    simp only [JsNum.toQ]
    ring_nf

/-- A task with an infinite time taken. -/
def nonFiniteTask : Task :=
  { id := "nf", title := "NF", revenue := JsNum.posInf, timeTaken := JsNum.posInf
    priority := Priority.High, status := "Todo", createdAt := 0, completedAt := none }

/-- C3 counterexample: on a collection containing a task with non-finite
`timeTaken`/`revenue`, `computeTotalTimeTaken` and `computeWeightedPipeline`
return an infinite value, so non-finite values do escape the engine. -/
theorem engine_nonfinite_cex :
    computeTotalTimeTaken [nonFiniteTask] = JsNum.posInf ∧
      computeWeightedPipeline [nonFiniteTask] = JsNum.posInf ∧
      JsNum.posInf.isFinite = false := by
  refine ⟨rfl, ?_, rfl⟩
  show (JsNum.fin 0).add (JsNum.posInf.mul (JsNum.fin ((pipelineWeight "Todo").getD 0))) =
    JsNum.posInf
  have h1 : (pipelineWeight "Todo").getD 0 = 1/10 := rfl
  rw [h1]
  have h2 : JsNum.posInf.mul (JsNum.fin (1/10)) = JsNum.posInf := by
    norm_num [JsNum.mul]
  rw [h2]
  rfl

/-- C3 (amended): for every collection whose tasks all carry finite
`revenue` and `timeTaken`, `computeTotalTimeTaken` and
`computeWeightedPipeline` return finite values (and the embedding is
total, so no call fails). -/
theorem engine_finite_outputs (ts : List Task)
    (h : ∀ t ∈ ts, t.revenue.isFinite = true ∧ t.timeTaken.isFinite = true) :
    (computeTotalTimeTaken ts).isFinite = true ∧
      (computeWeightedPipeline ts).isFinite = true := by
  constructor
  · unfold computeTotalTimeTaken
    rw [show (JsNum.fin 0 : JsNum) = JsNum.fin (0 : ℚ) from rfl,
      foldl_add_fin (fun t => t.timeTaken) ts 0 ?_]
    · rfl
    · intro t ht
      rcases (h t ht).2 with h2
      cases htt : t.timeTaken <;> simp [htt, JsNum.isFinite] at h2 ⊢
  · unfold computeWeightedPipeline
    rw [foldl_add_fin (fun t => t.revenue.mul (JsNum.fin ((pipelineWeight t.status).getD 0)))
      ts 0 ?_]
    · rfl
    · intro t ht
      rcases (h t ht).1 with h1
      cases hr : t.revenue <;> simp [hr, JsNum.isFinite] at h1 ⊢
      exact ⟨_, rfl⟩

/-- A finite-valued task for witnesses. -/
def plainTask : Task :=
  { id := "p", title := "P", revenue := JsNum.fin 100, timeTaken := JsNum.fin 4
    priority := Priority.Medium, status := "Done", createdAt := 0, completedAt := none }

unseal Rat.add Rat.mul Rat.inv Rat.sub in
/-- Witness for the amended C3 at a concrete finite collection. -/
theorem engine_finite_outputs_witness :
    (computeTotalTimeTaken [plainTask]).isFinite = true ∧
      (computeWeightedPipeline [plainTask]).isFinite = true :=
  engine_finite_outputs [plainTask] (by decide)

/-- C6: for finite revenues, `computeWeightedPipeline` equals the finite
rational sum of `revenue * weight(status)` with weights exactly 1/10 for
Todo, 1/2 for In Progress, 1 for Done, and 0 for any unrecognized status
(an empty collection therefore yields 0, the empty sum). -/
theorem computeWeightedPipeline_spec (ts : List Task)
    (h : ∀ t ∈ ts, t.revenue.isFinite = true) :
    computeWeightedPipeline ts =
      JsNum.fin ((ts.map (fun t => t.revenue.toQ *
        (if t.status = "Todo" then (1 : ℚ)/10
         else if t.status = "In Progress" then 1/2
         else if t.status = "Done" then 1
         else 0))).sum) := by
  unfold computeWeightedPipeline
  rw [foldl_add_fin (fun t => t.revenue.mul (JsNum.fin ((pipelineWeight t.status).getD 0)))
    ts 0 ?_]
  · rw [zero_add]
    refine congrArg JsNum.fin (congrArg List.sum (List.map_congr_left ?_))
    intro t ht
    have h1 := h t ht
    have hw : (pipelineWeight t.status).getD 0 =
        (if t.status = "Todo" then (1 : ℚ)/10
         else if t.status = "In Progress" then 1/2
         else if t.status = "Done" then 1
         else 0) := by
      unfold pipelineWeight
      split_ifs <;> rfl
    cases hr : t.revenue with
    | fin q => simp [JsNum.mul, JsNum.toQ, hw]
    | posInf => simp [hr, JsNum.isFinite] at h1
    | negInf => simp [hr, JsNum.isFinite] at h1
    | nan => simp [hr, JsNum.isFinite] at h1
  · intro t ht
    have h1 := h t ht
    cases hr : t.revenue <;> simp [hr, JsNum.isFinite] at h1 ⊢
    exact ⟨_, rfl⟩

/-- A task whose status string is none of the three recognized values. -/
def unknownStatusTask : Task :=
  { id := "u", title := "U", revenue := JsNum.fin 40, timeTaken := JsNum.fin 1
    priority := Priority.Low, status := "Archived", createdAt := 0, completedAt := none }

unseal Rat.add Rat.mul Rat.inv Rat.sub in
/-- Witness for C6: a Done task contributes its full revenue, a task with
an unrecognized status contributes 0. -/
theorem computeWeightedPipeline_spec_witness :
    computeWeightedPipeline [plainTask, unknownStatusTask] = JsNum.fin 100 :=
  (computeWeightedPipeline_spec [plainTask, unknownStatusTask] (by decide)).trans (by decide)

/-- C7: `computeAverageROI` is the arithmetic mean of the defined ROI
values only — a task with undefined ROI counts toward neither the sum nor
the divisor — and it is 0 when no task has a defined ROI (in particular on
the empty collection). -/
theorem computeAverageROI_spec (ts : List Task) :
    (computeAverageROI ts =
      (if ts.filterMap (fun t => computeROI t.revenue t.timeTaken) = [] then 0
       else (ts.filterMap (fun t => computeROI t.revenue t.timeTaken)).sum /
         (ts.filterMap (fun t => computeROI t.revenue t.timeTaken)).length)) ∧
    (∀ t : Task, computeROI t.revenue t.timeTaken = none →
      computeAverageROI (t :: ts) = computeAverageROI ts) := by
  constructor
  · unfold computeAverageROI
    rw [List.sum_eq_foldl]
    simp [List.length_eq_zero]
  · intro t ht
    unfold computeAverageROI
    simp [List.filterMap_cons, ht]

/-- A task whose ROI is undefined because its time taken is zero. -/
def zeroTimeTask : Task :=
  { id := "z", title := "Z", revenue := JsNum.fin 50, timeTaken := JsNum.fin 0
    priority := Priority.Low, status := "Todo", createdAt := 0, completedAt := none }

unseal Rat.add Rat.mul Rat.inv Rat.sub in
/-- Witness for C7: prepending a task with undefined ROI leaves the
average unchanged. -/
theorem computeAverageROI_spec_witness :
    computeAverageROI [zeroTimeTask, plainTask] = computeAverageROI [plainTask] :=
  (computeAverageROI_spec [plainTask]).2 zeroTimeTask (by decide)

theorem velocityBucket_eq (ts : List Task) (p : Priority) :
    velocityBucket ts p =
      (ts.filter (fun t => decide (t.priority = p) && t.completedAt.isSome)).map
        (fun t => daysBetween t.createdAt (t.completedAt.getD 0)) := by
  induction ts with
  | nil => rfl
  | cons t ts ih =>
    unfold velocityBucket at ih ⊢
    rw [List.filterMap_cons, List.filter_cons]
    cases hc : t.completedAt with
    | none => simp [hc, ih]
    | some c =>
      by_cases hp : t.priority = p
      · simp [hc, hp, ih]
      · simp [hc, hp, ih]

/-- C9: per priority bucket, `computeVelocityByPriority` reports the mean
of `daysBetween(createdAt, completedAt)` over the tasks of that priority
that have a `completedAt`, and as median the element at index
`floor(n / 2)` of those values sorted ascending (the upper-middle element
for even `n`); a bucket with no completed task reports 0/0. -/
theorem computeVelocityByPriority_spec (ts : List Task) (p : Priority) :
    computeVelocityByPriority ts p =
      (if (ts.filter (fun t => decide (t.priority = p) && t.completedAt.isSome)).map
          (fun t => daysBetween t.createdAt (t.completedAt.getD 0)) = [] then
        (⟨0, 0⟩ : VelocityStat)
       else
        { avgDays :=
            ((((ts.filter (fun t => decide (t.priority = p) && t.completedAt.isSome)).map
                (fun t => daysBetween t.createdAt (t.completedAt.getD 0))).sum : ℤ) : ℚ) /
              (((ts.filter (fun t => decide (t.priority = p) && t.completedAt.isSome)).map
                (fun t => daysBetween t.createdAt (t.completedAt.getD 0))).length : ℚ)
          medianDays :=
            (((((ts.filter (fun t => decide (t.priority = p) && t.completedAt.isSome)).map
                  (fun t => daysBetween t.createdAt (t.completedAt.getD 0))).insertionSort
                  (· ≤ ·)).getD
                (((ts.filter (fun t => decide (t.priority = p) && t.completedAt.isSome)).map
                  (fun t => daysBetween t.createdAt (t.completedAt.getD 0))).length / 2)
                0 : ℤ) : ℚ) }) := by
  unfold computeVelocityByPriority
  rw [velocityBucket_eq]
  set vals := (ts.filter (fun t => decide (t.priority = p) && t.completedAt.isSome)).map
    (fun t => daysBetween t.createdAt (t.completedAt.getD 0)) with hv
  have hlen : (vals.insertionSort (· ≤ ·)).length = vals.length :=
    List.length_insertionSort _ _
  by_cases h0 : vals = []
  · simp [h0]
  · have hne : vals.length ≠ 0 := fun hh => h0 (List.length_eq_zero.mp hh)
    rw [if_neg (by rw [hlen]; exact hne), if_neg h0]
    have hsum : (vals.insertionSort (· ≤ ·)).foldl (· + ·) (0 : ℤ) = vals.sum := by
      rw [← List.sum_eq_foldl]
      exact (List.perm_insertionSort _ vals).sum_eq
    rw [hsum, hlen]

/-- Sum of the indices `0, ..., n-1` as rationals. -/
def specSumRange (n : ℕ) : ℚ := ((List.range n).map (fun i : ℕ => (i : ℚ))).sum

/-- Sum of the squared indices `0, ..., n-1` as rationals. -/
def specSumRangeSq (n : ℕ) : ℚ := ((List.range n).map (fun i : ℕ => (i : ℚ) ^ 2)).sum

/-- Sum of index-times-value over a series. -/
def specSumXY (ys : List ℚ) : ℚ :=
  ((List.range ys.length).map (fun i : ℕ => (i : ℚ) * ys.getD i 0)).sum

/-- The ordinary least-squares slope of the values `ys` regressed against
the indices `0, 1, 2, ...`, in the closed form the spec describes (no
zero-denominator guard). -/
def specOlsSlope (ys : List ℚ) : ℚ :=
  ((ys.length : ℚ) * specSumXY ys - specSumRange ys.length * ys.sum) /
    ((ys.length : ℚ) * specSumRangeSq ys.length - specSumRange ys.length ^ 2)

/-- The ordinary least-squares intercept of `ys` against the indices. -/
def specOlsIntercept (ys : List ℚ) : ℚ :=
  (ys.sum - specOlsSlope ys * specSumRange ys.length) / (ys.length : ℚ)

theorem specSumRange_eq : ∀ n : ℕ, specSumRange n = (n : ℚ) * ((n : ℚ) - 1) / 2
  | 0 => by simp [specSumRange]
  | n + 1 => by
    have ih := specSumRange_eq n
    unfold specSumRange at ih ⊢
    rw [List.range_succ, List.map_append, List.sum_append, ih]
    push_cast
    simp
    ring

theorem specSumRangeSq_eq : ∀ n : ℕ,
    specSumRangeSq n = (n : ℚ) * ((n : ℚ) - 1) * (2 * (n : ℚ) - 1) / 6
  | 0 => by simp [specSumRangeSq]
  | n + 1 => by
    have ih := specSumRangeSq_eq n
    unfold specSumRangeSq at ih ⊢
    rw [List.range_succ, List.map_append, List.sum_append, ih]
    push_cast
    simp
    ring

/-- Folding `acc + f v` over a list is adding the sum of the images. -/
theorem foldl_add_eq_sum {α : Type} (f : α → ℚ) : ∀ (l : List α) (s : ℚ),
    l.foldl (fun acc v => acc + f v) s = s + (l.map f).sum
  | [], s => by simp
  | a :: l, s => by
    simp only [List.foldl_cons, List.map_cons, List.sum_cons]
    rw [foldl_add_eq_sum f l (s + f a)]
    ring

theorem fcSumX_eq (weekly : List WeekPoint) : fcSumX weekly = specSumRange weekly.length := by
  unfold fcSumX fcX specSumRange
  rw [← List.sum_eq_foldl]

theorem fcSumY_eq (weekly : List WeekPoint) :
    fcSumY weekly = (weekly.map (·.revenue)).sum := by
  unfold fcSumY
  rw [← List.sum_eq_foldl]

theorem fcSumXX_eq (weekly : List WeekPoint) :
    fcSumXX weekly = specSumRangeSq weekly.length := by
  unfold fcSumXX fcX specSumRangeSq
  rw [foldl_add_eq_sum (fun v => v * v), zero_add, List.map_map]
  congr 1
  apply List.map_congr_left
  intro i _
  simp [sq]

theorem fcSumXY_eq (weekly : List WeekPoint) :
    fcSumXY weekly = specSumXY (weekly.map (·.revenue)) := by
  unfold fcSumXY specSumXY
  rw [foldl_add_eq_sum (fun i : ℕ => (i : ℚ) * (weekly.map (·.revenue)).getD i 0), zero_add,
    List.length_map]

theorem fcX_length (weekly : List WeekPoint) : (fcX weekly).length = weekly.length := by
  unfold fcX
  rw [List.length_map, List.length_range]

theorem fcDen_eq (weekly : List WeekPoint) :
    fcDen weekly = (weekly.length : ℚ) ^ 2 * ((weekly.length : ℚ) - 1) *
      ((weekly.length : ℚ) + 1) / 12 := by
  unfold fcDen
  rw [fcX_length, fcSumX_eq, fcSumXX_eq, specSumRange_eq, specSumRangeSq_eq]
  ring

theorem fcDen_pos (weekly : List WeekPoint) (h2 : 2 ≤ weekly.length) : 0 < fcDen weekly := by
  rw [fcDen_eq]
  have hn : (2 : ℚ) ≤ (weekly.length : ℚ) := by exact_mod_cast h2
  have ha : (1 : ℚ) ≤ (weekly.length : ℚ) - 1 := by linarith
  have hb : (3 : ℚ) ≤ (weekly.length : ℚ) + 1 := by linarith
  have hc : (4 : ℚ) ≤ (weekly.length : ℚ) ^ 2 := by nlinarith
  have hd : (0 : ℚ) < (weekly.length : ℚ) ^ 2 * ((weekly.length : ℚ) - 1) *
      ((weekly.length : ℚ) + 1) := by nlinarith
  exact div_pos hd (by norm_num)

theorem fcSlope_eq (weekly : List WeekPoint) (h2 : 2 ≤ weekly.length) :
    fcSlope weekly = specOlsSlope (weekly.map (·.revenue)) := by
  have hden : fcDen weekly ≠ 0 := ne_of_gt (fcDen_pos weekly h2)
  unfold fcSlope specOlsSlope
  rw [if_neg hden, fcX_length, fcSumXY_eq, fcSumX_eq, fcSumY_eq]
  unfold fcDen
  rw [fcX_length, fcSumX_eq, fcSumXX_eq, List.length_map]
  ring_nf

theorem fcIntercept_eq (weekly : List WeekPoint) (h2 : 2 ≤ weekly.length) :
    fcIntercept weekly = specOlsIntercept (weekly.map (·.revenue)) := by
  unfold fcIntercept specOlsIntercept
  rw [fcX_length, fcSlope_eq weekly h2, fcSumX_eq, fcSumY_eq, List.length_map]

unseal Rat.add Rat.mul Rat.inv Rat.sub in
/-- C5: `computeForecast` is empty for fewer than 2 points; for `n >= 2`
points it returns exactly `horizonWeeks` points whose revenues are
`max 0 (slope * x + intercept)` for the ordinary least-squares line of
revenue against index, evaluated at `x = n, n + 1, ...`; no forecast
revenue is negative; and on the series (10, 20) with horizon 2 the
forecast revenues are 30 and 40. -/
theorem computeForecast_spec (weekly : List WeekPoint) (h : ℕ) :
    (weekly.length < 2 → computeForecast weekly h = []) ∧
    (2 ≤ weekly.length →
      (computeForecast weekly h).length = h ∧
      ∀ i, i < h → ((computeForecast weekly h).getD i ⟨"", 0⟩).revenue =
        max 0 (specOlsSlope (weekly.map (·.revenue)) * ((weekly.length : ℚ) + (i : ℚ)) +
          specOlsIntercept (weekly.map (·.revenue)))) ∧
    (∀ p ∈ computeForecast weekly h, 0 ≤ p.revenue) ∧
    computeForecast [⟨"w1", 10⟩, ⟨"w2", 20⟩] 2 = [⟨"+1", 30⟩, ⟨"+2", 40⟩] := by
  refine ⟨?_, ?_, ?_, ?_⟩
  · intro hlt
    unfold computeForecast
    rw [if_pos hlt]
  · intro h2
    have hnlt : ¬ weekly.length < 2 := not_lt.mpr h2
    unfold computeForecast
    rw [if_neg hnlt]
    constructor
    · rw [List.length_map, List.length_range]
    · intro i hi
      rw [List.getD_eq_getElem _ _ (by rw [List.length_map, List.length_range]; exact hi),
        List.getElem_map, List.getElem_range]
      show max 0 (fcSlope weekly * (((fcX weekly).length : ℚ) + i) + fcIntercept weekly) = _
      rw [fcSlope_eq weekly h2, fcIntercept_eq weekly h2, fcX_length]
  · intro p hp
    unfold computeForecast at hp
    by_cases hlt : weekly.length < 2
    · rw [if_pos hlt] at hp
      exact absurd hp (List.not_mem_nil p)
    · rw [if_neg hlt] at hp
      obtain ⟨i, _, hpi⟩ := List.mem_map.mp hp
      rw [← hpi]
      exact le_max_left 0 _
  · decide

/-- Witness for C5: both branches at concrete inputs. -/
theorem computeForecast_spec_witness :
    computeForecast [⟨"w1", 10⟩] 4 = [] ∧
      (computeForecast [⟨"w1", 10⟩, ⟨"w2", 20⟩] 3).length = 3 :=
  ⟨(computeForecast_spec [⟨"w1", 10⟩] 4).1 (by decide),
   ((computeForecast_spec [⟨"w1", 10⟩, ⟨"w2", 20⟩] 3).2.1 (by decide)).1⟩

/-- A task completed on Monday 2024-02-26, which lies in ISO week 9 of
2024 (epoch day 19779). -/
def week9Task : Task :=
  { id := "w9", title := "W9", revenue := JsNum.fin 100, timeTaken := JsNum.fin 1
    priority := Priority.High, status := "Done", createdAt := 0
    completedAt := some (19779 * 86400000) }

/-- A task completed on Monday 2024-03-04, which lies in ISO week 10 of
2024 (epoch day 19786). -/
def week10Task : Task :=
  { id := "w10", title := "W10", revenue := JsNum.fin 50, timeTaken := JsNum.fin 1
    priority := Priority.Low, status := "Done", createdAt := 0
    completedAt := some (19786 * 86400000) }

unseal Rat.add Rat.mul Rat.inv Rat.sub in
/-- C2 failing input: on tasks completed in weeks 9 and 10 of 2024 (given
in chronological order) `computeThroughputByWeek` produces the unpadded
keys `"2024-W9"` and `"2024-W10"` and sorts the week-10 bucket before the
week-9 bucket, so the output is neither formatted `<year>-W<two-digit
week>` nor in chronological week order. -/
theorem computeThroughputByWeek_cex :
    (computeThroughputByWeek [week9Task, week10Task]).map (fun e => e.week) =
      ["2024-W10", "2024-W9"] := by
  decide

end TaskGlitch
